import Mathlib

/-!
Shallow embedding of the conditional-orderbook matching subsystem
(crate `orderbook`, plus the sibling HTTP crate) in Lean 4.

Prices and quantities are modelled as rationals: `rust_decimal::Decimal`
is an exact decimal type, a subset of the rationals on which `<=`, `>=`
and `=` coincide with the rational orders, so every comparison in the
source is modelled faithfully.  Machine timestamps (`i64`) are modelled
as integers; the claims proved here never exercise `i64` overflow.
`uuid::Uuid::new_v4()` and `now_ms()` are nondeterministic inputs and are
passed in explicitly.
-/

namespace Orderbook

/-- From `src/orderbook/src/entities/order.rs`: `enum OrderSide`. -/
inductive OrderSide where
  | Buy
  | Sell
deriving DecidableEq, Repr

/-- From `src/orderbook/src/entities/order.rs`: `enum OrderStatus`. -/
inductive OrderStatus where
  | New
  | Open
  | PartiallyFilled
  | Filled
  | Cancelled
deriving DecidableEq, Repr

/-- From `src/orderbook/src/entities/order.rs`: `struct Order`.
`price` and `quantity` are `rust_decimal::Decimal` in the source,
modelled as rationals. -/
structure Order where
  id : String
  pair : String
  side : OrderSide
  price : ℚ
  quantity : ℚ
  status : OrderStatus
  created : ℤ
  updated : ℤ
deriving DecidableEq, Repr

/-- From `src/orderbook/src/entities/order.rs`: `struct NewOrder`. -/
structure NewOrder where
  pair : String
  side : OrderSide
  price : ℚ
  quantity : ℚ
deriving DecidableEq, Repr

/-- From `src/orderbook/src/entities/order.rs`: `Order::new`.  The fresh
uuid and the current time are nondeterministic and passed in. -/
def Order.new (freshId : String) (pair : String) (side : OrderSide)
    (price quantity : ℚ) (now : ℤ) : Order :=
  { id := freshId
    pair := pair
    side := side
    price := price
    quantity := quantity
    status := OrderStatus.New
    created := now
    updated := now }

/-- From `src/orderbook/src/repositories` (`ListOrdersQuery`): the filter
record passed to `list`; `limit` and `offset` are `Option<i64>`. -/
structure ListOrdersQuery where
  pair : Option String
  status : Option OrderStatus
  limit : Option ℤ
  offset : Option ℤ
deriving DecidableEq, Repr

/-- Repository state.  `orders` models the backing
`HashMap<String, Order>` (keyed by `Order.id`; key uniqueness is the
`Nodup` hypothesis where a theorem needs it).  `failSetFor` and
`failListOn` model the fallible repository contract exactly as the
engine's own test double (`FakeRepo` in `src/orderbook/src/engine/mod.rs`)
injects failures: `set_status` errors on the listed ids, `list` errors on
the listed status.  The in-memory repository is the special case
`failSetFor = [] ∧ failListOn = none`.  `now` models `now_ms()` for the
next write. -/
structure RepoState where
  orders : List Order
  failSetFor : List String
  failListOn : Option OrderStatus
  now : ℤ
deriving DecidableEq, Repr

/-- The empty repository (`InMemoryOrderRepository::default()`). -/
def emptyRepo : RepoState :=
  { orders := [], failSetFor := [], failListOn := none, now := 0 }

/-- From `src/orderbook/src/repositories/in_memory.rs`, `list`: the two
`retain` passes, pair filter then status filter, each applied only when
the corresponding query field is present. -/
def filterOrders (orders : List Order) (qpair : Option String)
    (qstatus : Option OrderStatus) : List Order :=
  let items :=
    match qpair with
    | some p => orders.filter (fun o => decide (o.pair = p))
    | none => orders
  match qstatus with
  | some s => items.filter (fun o => decide (o.status = s))
  | none => items

/-- From `src/orderbook/src/repositories/in_memory.rs`, `list`: the
offset/limit slice applied after filtering.  `start` is
`q.offset.unwrap_or(0).max(0) as usize`; the end index is
`q.limit.filter(|&l| l > 0).map(|l| start + l as usize).unwrap_or(items.len())`
clamped to `items.len()`; `start >= items.len()` returns the empty list,
otherwise `items[start..end]`. -/
def sliceOrders (items : List Order) (limit offset : Option ℤ) : List Order :=
  let start : ℕ := (max (offset.getD 0) 0).toNat
  let endIdx : ℕ :=
    min (match limit with
          | some l => if 0 < l then start + l.toNat else items.length
          | none => items.length)
      items.length
  if items.length ≤ start then [] else (items.drop start).take (endIdx - start)

/-- From `src/orderbook/src/repositories/in_memory.rs`, `list`: filter by
pair and status, then slice by offset and limit. -/
def listOrders (orders : List Order) (q : ListOrdersQuery) : List Order :=
  sliceOrders (filterOrders orders q.pair q.status) q.limit q.offset

/-- Repository `list` as the engine sees it: the in-memory filtering and
slicing, with the error injection of the engine's test double (fails when
the queried status equals `failListOn`). -/
def RepoState.list (r : RepoState) (q : ListOrdersQuery) :
    Except String (List Order) :=
  match q.status, r.failListOn with
  | some s, some s' =>
      if s = s' then Except.error "boom listing"
      else Except.ok (listOrders r.orders q)
  | _, _ => Except.ok (listOrders r.orders q)

/-- From `src/orderbook/src/repositories/in_memory.rs`, `set_status`
(with the test double's id-keyed failure injection): look the order up by
id, set its status unconditionally, refresh `updated`, and return the
updated order.  There is no terminal-state guard in the source. -/
def RepoState.set_status (r : RepoState) (id : String) (st : OrderStatus) :
    Except String (Order × RepoState) :=
  if id ∈ r.failSetFor then Except.error "boom set_status"
  else
    match r.orders.find? (fun o => decide (o.id = id)) with
    | none => Except.error "not found"
    | some o =>
        let o' : Order := { o with status := st, updated := r.now }
        Except.ok (o', { r with
          orders := r.orders.map (fun x => if x.id = id then o' else x) })

/-- From `src/orderbook/src/repositories/in_memory.rs`, `create`: build
the order with `Order::new` (status `New`, timestamps `now`) and insert
it under its id (`HashMap::insert` overwrites any entry with that key). -/
def RepoState.create (r : RepoState) (freshId : String) (n : NewOrder) :
    Order × RepoState :=
  let o := Order.new freshId n.pair n.side n.price n.quantity r.now
  (o, { r with
    orders := o :: r.orders.filter (fun x => decide (¬ x.id = freshId)) })

/-- From `src/orderbook/src/repositories/in_memory.rs`, `delete`: remove
the entry, `not found` error when absent. -/
def RepoState.delete (r : RepoState) (id : String) :
    Except String RepoState :=
  if r.orders.any (fun o => decide (o.id = id)) then
    Except.ok { r with
      orders := r.orders.filter (fun x => decide (¬ x.id = id)) }
  else Except.error "not found"

/-- From `src/orderbook/src/engine/mod.rs`, `crosses`: a `Buy` crosses
when its limit is at or above the oracle price, a `Sell` when at or
below. -/
def crosses (o : Order) (oracle_px : ℚ) : Bool :=
  match o.side with
  | OrderSide.Buy => decide (o.price ≥ oracle_px)
  | OrderSide.Sell => decide (o.price ≤ oracle_px)

/-- From `src/orderbook/src/engine/mod.rs`, `collect_active_orders`: one
`list` call per status in `[New, Open, PartiallyFilled]`, each with
`pair = asset` and no limit or offset; successful results are appended,
a failed call contributes nothing. -/
def collect_active_orders (asset : String) (r : RepoState) : List Order :=
  [OrderStatus.New, OrderStatus.Open, OrderStatus.PartiallyFilled].foldl
    (fun acc status =>
      match r.list { pair := some asset, status := some status,
                      limit := none, offset := none } with
      | Except.ok v => acc ++ v
      | Except.error _ => acc)
    []

/-- From `src/orderbook/src/engine/mod.rs`, `process_active_orders`: for
each order in turn, a crossing order is set to `Filled` (counting
`matched` on success), a non-crossing `New` order is set to `Open`
(counting `promoted` on success), anything else is left alone; a
`set_status` error is logged only, and the loop continues.  Returns the
final repository state with the `(matched, promoted)` counters. -/
def process_active_orders (r : RepoState) (orders : List Order) (px : ℚ) :
    RepoState × ℕ × ℕ :=
  match orders with
  | [] => (r, 0, 0)
  | o :: rest =>
      if crosses o px then
        match r.set_status o.id OrderStatus.Filled with
        | Except.ok (_, r') =>
            let (r2, m, p) := process_active_orders r' rest px
            (r2, m + 1, p)
        | Except.error _ => process_active_orders r rest px
      else if o.status = OrderStatus.New then
        match r.set_status o.id OrderStatus.Open with
        | Except.ok (_, r') =>
            let (r2, m, p) := process_active_orders r' rest px
            (r2, m, p + 1)
        | Except.error _ => process_active_orders r rest px
      else process_active_orders r rest px

/-- One matcher tick for one asset at oracle price `px` (the body of
`run_worker` after a price is available): collect the active set, then
process it.  (When the active set is empty the worker skips processing,
which equals processing the empty list.) -/
def matcherTick (asset : String) (r : RepoState) (px : ℚ) :
    RepoState × ℕ × ℕ :=
  process_active_orders r (collect_active_orders asset r) px

/-! Oracle service: `src/orderbook/src/oracle_service/mod.rs`. -/

/-- From `src/orderbook/src/oracle_service/mod.rs`: `struct Tick`.  In
the source `price` is `f64` (see the numerical-representation claim);
its mathematical value is modelled as a rational. -/
structure Tick where
  pair : String
  price : ℚ
  ts_ms : ℤ
deriving DecidableEq, Repr

/-- The price cache (`OracleCache`): a `HashMap<String, Tick>` keyed by
`Tick.pair`, modelled as an association list with unique keys. -/
structure OracleCache where
  inner : List (String × Tick)
deriving DecidableEq, Repr

/-- `OracleCache::default()`. -/
def emptyCache : OracleCache := { inner := [] }

/-- `OracleCache::set`: `HashMap::insert(t.pair, t)` — overwrite the
entry for `t.pair` with `t`. -/
def OracleCache.set (c : OracleCache) (t : Tick) : OracleCache :=
  { inner := (t.pair, t) ::
      c.inner.filter (fun e => decide (¬ e.1 = t.pair)) }

/-- `OracleCache::get_price`: look the pair up and project
`(price, ts_ms)`; `none` when the pair has no entry. -/
def OracleCache.get_price (c : OracleCache) (pair : String) :
    Option (ℚ × ℤ) :=
  (c.inner.find? (fun e => decide (e.1 = pair))).map
    (fun e => (e.2.price, e.2.ts_ms))

/-- One frame observed by the oracle client's read loop
(`OracleWsClient::spawn`).  A text frame carries `some tick` when
`serde_json::from_str::<Tick>` succeeds and `none` when it fails. -/
inductive Frame where
  | text (decoded : Option Tick)
  | binary
  | ping
  | close
deriving DecidableEq, Repr

/-- Frame dispatch of the read loop in `OracleWsClient::spawn`: a
successfully decoded text frame is stored via `cache.set`; a failed
decode is only logged; binary, ping and close frames never touch the
cache. -/
def applyFrame (c : OracleCache) (f : Frame) : OracleCache :=
  match f with
  | Frame.text (some t) => c.set t
  | _ => c

/-- The cache after the client has dispatched a sequence of frames. -/
def applyFrames (c : OracleCache) (fs : List Frame) : OracleCache :=
  fs.foldl applyFrame c

/-- Spec-side definition for the price-cache refinement claim, following
the spec's words: the tick delivered by a frame when it was successfully
decoded and is for `pair`. -/
def frameTickFor (pair : String) (f : Frame) : Option Tick :=
  match f with
  | Frame.text (some t) => if t.pair = pair then some t else none
  | _ => none

/-- Spec-side definition, following the spec's words: the last tick for
`pair` successfully decoded among the dispatched frames (`none` when no
tick for `pair` was ever accepted). -/
def specLastAccepted (pair : String) (fs : List Frame) : Option Tick :=
  fs.foldl
    (fun acc f =>
      match frameTickFor pair f with
      | some t => some t
      | none => acc)
    none

/-! Reconnect backoff of `OracleWsClient::spawn`, in milliseconds.
Iteration `n` of the connection loop: a connect attempt, on success the
stored backoff is reset to the configured `reconnect_backoff` and a
session runs until close or error; then `sleep(backoff)` and
`backoff = min (backoff * 2) 30000` (the source caps at
`Duration::from_secs(30)`).  `outcomes n = true` means the connect of
iteration `n` succeeded. -/

/-- The stored `backoff` variable at the start of iteration `n`. -/
def backoffState (initial : ℕ) (outcomes : ℕ → Bool) : ℕ → ℕ
  | 0 => initial
  | n + 1 =>
      min ((if outcomes n then initial else backoffState initial outcomes n) * 2)
        30000

/-- The wait actually slept at the end of iteration `n` (before the next
reconnect attempt): the stored backoff, which a successful connect has
reset to `initial`. -/
def waitBefore (initial : ℕ) (outcomes : ℕ → Bool) (n : ℕ) : ℕ :=
  if outcomes n then initial else backoffState initial outcomes n

/-! Repository operation sequences and the HTTP create surface
(`src/src/handlers/orders.rs` drives the same five repository
operations; its handlers pass the payload through without any
validation). -/

/-- One repository mutation, as issued by the matcher or the HTTP
handlers. -/
inductive RepoOp where
  | create (freshId : String) (n : NewOrder)
  | setStatus (id : String) (st : OrderStatus)
  | delete (id : String)
deriving DecidableEq, Repr

/-- Apply one operation; a failing operation leaves the state
unchanged. -/
def RepoState.applyOp (r : RepoState) (op : RepoOp) : RepoState :=
  match op with
  | RepoOp.create freshId n => (r.create freshId n).2
  | RepoOp.setStatus id st =>
      match r.set_status id st with
      | Except.ok (_, r') => r'
      | Except.error _ => r
  | RepoOp.delete id =>
      match r.delete id with
      | Except.ok r' => r'
      | Except.error _ => r

/-- Apply a sequence of repository operations. -/
def applyOps (r : RepoState) (ops : List RepoOp) : RepoState :=
  ops.foldl RepoState.applyOp r

/-- From `src/src/handlers/orders.rs`: `struct CreateOrderPayload` (its
`price` and `quantity` are `f64` in that crate; their mathematical
values are modelled as rationals). -/
structure CreateOrderPayload where
  pair : String
  side : OrderSide
  price : ℚ
  quantity : ℚ
deriving DecidableEq, Repr

/-- From `src/src/handlers/orders.rs`, `create_order`: copy the payload
fields into a `NewOrder` verbatim — no validation of any kind — and call
`repo.create`. -/
def create_order (r : RepoState) (freshId : String)
    (p : CreateOrderPayload) : Order × RepoState :=
  r.create freshId
    { pair := p.pair, side := p.side, price := p.price,
      quantity := p.quantity }

/-- A rational is exactly representable as a binary floating-point value
(of any precision) iff it is dyadic: some `m / 2 ^ e`.  The source's
`f64` oracle price (`Tick.price` in `src/orderbook/src/oracle_service/mod.rs`)
and the `f64` order fields of the sibling crate can only hold such
values. -/
def f64Exact (q : ℚ) : Prop :=
  ∃ (m : ℤ) (e : ℕ), q * 2 ^ e = (m : ℚ)

/-! Concrete fixtures used by witnesses and counterexamples, in the
shape of the repository's own test fixtures (`mk_order` in the engine
tests). -/

/-- A sample BTC/USDT order with quantity 1 and zero timestamps. -/
def sampleOrder (id : String) (side : OrderSide) (price : ℚ)
    (status : OrderStatus) : Order :=
  { id := id, pair := "BTC/USDT", side := side, price := price,
    quantity := 1, status := status, created := 0, updated := 0 }

/-- A healthy repository holding one `New` and one `Filled` order. -/
def wRepoA : RepoState :=
  { orders := [sampleOrder "n1" OrderSide.Buy 100 OrderStatus.New,
               sampleOrder "f1" OrderSide.Buy 100 OrderStatus.Filled],
    failSetFor := [], failListOn := none, now := 7 }

/-- A repository with injected failures: `set_status` fails for id
`bad`, `list` fails for status `Open`. -/
def wRepoFail : RepoState :=
  { orders := [sampleOrder "ok" OrderSide.Buy 100 OrderStatus.Open,
               sampleOrder "bad" OrderSide.Buy 100 OrderStatus.Open],
    failSetFor := ["bad"], failListOn := some OrderStatus.Open, now := 7 }

/-- A repository holding a single `Cancelled` order. -/
def wRepoCancel : RepoState :=
  { orders := [sampleOrder "c1" OrderSide.Buy 100 OrderStatus.Cancelled],
    failSetFor := [], failListOn := none, now := 7 }

/-! Theorems. -/

/-- C1: the crossing rule — for every order `o` and oracle price `px`, a
`Buy` order crosses iff `o.price ≥ px`, a `Sell` order crosses iff
`o.price ≤ px`, and equality counts as crossing on both sides. -/
theorem crosses_rule (o : Order) (px : ℚ) :
    (o.side = OrderSide.Buy → (crosses o px = true ↔ o.price ≥ px)) ∧
    (o.side = OrderSide.Sell → (crosses o px = true ↔ o.price ≤ px)) ∧
    (o.price = px → crosses o px = true) := by
  refine ⟨fun h => ?_, fun h => ?_, fun h => ?_⟩
  · simp [crosses, h]
  · simp [crosses, h]
  · cases hs : o.side <;> simp [crosses, hs, h]

/-- Witness for `crosses_rule`: a concrete buy order at limit 100
crosses at oracle price 100 (the boundary) and at 99. -/
theorem crosses_rule_witness :
    crosses (sampleOrder "w" OrderSide.Buy 100 OrderStatus.New) 100 = true ∧
    crosses (sampleOrder "w" OrderSide.Buy 100 OrderStatus.New) 99 = true :=
  ⟨(crosses_rule (sampleOrder "w" OrderSide.Buy 100 OrderStatus.New) 100).2.2 rfl,
   ((crosses_rule (sampleOrder "w" OrderSide.Buy 100 OrderStatus.New) 99).1 rfl).mpr
     (by norm_num [sampleOrder])⟩

/-- The stored backoff never exceeds the 30 s cap once the configured
initial backoff respects it. -/
theorem backoffState_le_cap (initial : ℕ) (outcomes : ℕ → Bool)
    (h : initial ≤ 30000) : ∀ n, backoffState initial outcomes n ≤ 30000
  | 0 => h
  | _ + 1 => min_le_right _ _

/-- C6: backoff discipline of the oracle client — every wait before a
reconnect is at most `max_backoff` (30 s = 30000 ms), a successful
connect resets the wait to `initial_backoff`, after every exit from the
connected state the stored backoff is the doubled wait capped at
`max_backoff`, and across consecutive failed attempts the waits are
monotonically non-decreasing. -/
theorem backoff_discipline (initial : ℕ) (outcomes : ℕ → Bool)
    (h : initial ≤ 30000) :
    (∀ n, waitBefore initial outcomes n ≤ 30000) ∧
    (∀ n, outcomes n = true → waitBefore initial outcomes n = initial) ∧
    (∀ n, backoffState initial outcomes (n + 1) =
      min (waitBefore initial outcomes n * 2) 30000) ∧
    (∀ n, outcomes n = false → outcomes (n + 1) = false →
      waitBefore initial outcomes n ≤ waitBefore initial outcomes (n + 1)) := by
  have hb := backoffState_le_cap initial outcomes h
  refine ⟨fun n => ?_, fun n hn => ?_, fun n => ?_, fun n h1 h2 => ?_⟩
  · unfold waitBefore
    split
    · exact h
    · exact hb n
  · simp [waitBefore, hn]
  · simp [waitBefore, backoffState]
  · simp only [waitBefore, h1, h2, Bool.false_eq_true, if_false, backoffState]
    exact le_min (by omega) (hb n)

/-- Witness for `backoff_discipline`: with the code's defaults (2 s
initial, all connects failing) the first wait is within the cap, and
with an immediately successful connect the first wait is the initial
backoff. -/
theorem backoff_discipline_witness :
    waitBefore 2000 (fun _ => false) 3 ≤ 30000 ∧
    waitBefore 2000 (fun _ => true) 0 = 2000 :=
  ⟨(backoff_discipline 2000 (fun _ => false) (by norm_num)).1 3,
   (backoff_discipline 2000 (fun _ => true) (by norm_num)).2.1 0 rfl⟩

/-- Looking a pair up right after `set` of a tick for that pair yields
that tick's price and timestamp. -/
theorem get_price_set_same (c : OracleCache) (t : Tick) :
    (c.set t).get_price t.pair = some (t.price, t.ts_ms) := by
  unfold OracleCache.set OracleCache.get_price
  rw [List.find?_cons_of_pos _ (by simp)]
  rfl

/-- Dropping the entries for one key does not change `find?` for a
different key. -/
theorem find?_filter_ne (l : List (String × Tick)) (tp pr : String)
    (h : tp ≠ pr) :
    (l.filter (fun e => decide (¬ e.1 = tp))).find?
        (fun e => decide (e.1 = pr)) =
      l.find? (fun e => decide (e.1 = pr)) := by
  induction l with
  | nil => rfl
  | cons a l ih =>
    by_cases ha : a.1 = tp
    · rw [List.filter_cons, if_neg (by simp [ha]),
        List.find?_cons_of_neg _ (by simp [ha, h]), ih]
    · by_cases hpr : a.1 = pr
      · rw [List.filter_cons, if_pos (by simp [ha]),
          List.find?_cons_of_pos _ (by simp [hpr]),
          List.find?_cons_of_pos _ (by simp [hpr])]
      · rw [List.filter_cons, if_pos (by simp [ha]),
          List.find?_cons_of_neg _ (by simp [hpr]),
          List.find?_cons_of_neg _ (by simp [hpr]), ih]

/-- A `set` for one pair does not change `get_price` of another pair. -/
theorem get_price_set_other (c : OracleCache) (t : Tick) (pair : String)
    (h : t.pair ≠ pair) :
    (c.set t).get_price pair = c.get_price pair := by
  unfold OracleCache.set OracleCache.get_price
  rw [List.find?_cons_of_neg _ (by simp [h]), find?_filter_ne _ _ _ h]

/-- Dispatching frames starting from any cache state refines the
spec-side fold that tracks the last accepted tick. -/
theorem applyFrames_get_price (fs : List Frame) (c : OracleCache)
    (pair : String) (acc : Option Tick)
    (hinv : c.get_price pair = acc.map (fun t => (t.price, t.ts_ms))) :
    (applyFrames c fs).get_price pair =
      (fs.foldl
        (fun acc f =>
          match frameTickFor pair f with
          | some t => some t
          | none => acc)
        acc).map (fun t => (t.price, t.ts_ms)) := by
  induction fs generalizing c acc with
  | nil => simpa [applyFrames] using hinv
  | cons f fs ih =>
    simp only [applyFrames, List.foldl_cons] at *
    cases f with
    | text od =>
      cases od with
      | none => exact ih c acc hinv
      | some t =>
        by_cases hp : t.pair = pair
        · have hgoal := ih (c.set t) (some t)
            (by rw [← hp]; simpa using get_price_set_same c t)
          simpa [applyFrame, frameTickFor, hp] using hgoal
        · have hgoal := ih (c.set t) acc
            (by rw [get_price_set_other c t pair hp, hinv])
          simpa [applyFrame, frameTickFor, hp] using hgoal
    | binary => exact ih c acc hinv
    | ping => exact ih c acc hinv
    | close => exact ih c acc hinv

/-- C5: price-cache correctness — after the oracle client dispatches any
sequence of frames starting from the empty cache, `get_price pair`
returns exactly the price and timestamp of the last successfully decoded
tick for that pair; it is absent iff no tick for that pair was ever
accepted; and a frame whose JSON decode failed leaves the whole cache
unchanged. -/
theorem price_cache_last_tick (fs : List Frame) (pair : String) :
    ((applyFrames emptyCache fs).get_price pair =
      (specLastAccepted pair fs).map (fun t => (t.price, t.ts_ms))) ∧
    ((applyFrames emptyCache fs).get_price pair = none ↔
      specLastAccepted pair fs = none) ∧
    (∀ c : OracleCache, applyFrame c (Frame.text none) = c) := by
  have h : (applyFrames emptyCache fs).get_price pair =
      (specLastAccepted pair fs).map (fun t => (t.price, t.ts_ms)) :=
    applyFrames_get_price fs emptyCache pair none rfl
  refine ⟨h, ?_, fun c => rfl⟩
  rw [h, Option.map_eq_none']

/-- Anatomy of a successful `set_status`: the returned order carries the
requested id and status, and the new state rewrites exactly the entries
with that id, leaving everything else in place. -/
theorem set_status_ok (r : RepoState) (id : String) (st : OrderStatus)
    (o' : Order) (r' : RepoState)
    (h : r.set_status id st = Except.ok (o', r')) :
    o'.id = id ∧ o'.status = st ∧
      (∃ o0 ∈ r.orders, o' = { o0 with status := st, updated := r.now }) ∧
      r' = { r with
        orders := r.orders.map (fun x => if x.id = id then o' else x) } := by
  unfold RepoState.set_status at h
  split at h
  · cases h
  · cases hfind : r.orders.find? (fun o => decide (o.id = id)) with
    | none => rw [hfind] at h; cases h
    | some o0 =>
      rw [hfind] at h
      have hid : o0.id = id := by simpa using List.find?_some hfind
      have hmem : o0 ∈ r.orders := List.mem_of_find?_eq_some hfind
      simp only [Except.ok.injEq, Prod.mk.injEq] at h
      obtain ⟨h1, h2⟩ := h
      subst h1
      subst h2
      exact ⟨hid, rfl, ⟨o0, hmem, rfl⟩, rfl⟩

/-- C2: per-tick processing outcome for each order `o` evaluated at
oracle price `px` — when `o` crosses, the matcher issues
`set_status(o.id, Filled)` and counts it as matched exactly when the call
succeeds; when `o` does not cross and is `New`, it issues
`set_status(o.id, Open)` and counts it as promoted exactly when the call
succeeds; when `o` does not cross and is `Open` or `PartiallyFilled`, it
performs no repository write for `o` and neither counter changes. -/
theorem per_order_outcome (r : RepoState) (o : Order) (px : ℚ) :
    (crosses o px = true →
      (∀ o' r', r.set_status o.id OrderStatus.Filled = Except.ok (o', r') →
        process_active_orders r [o] px = (r', 1, 0) ∧
          o'.status = OrderStatus.Filled) ∧
      (∀ e, r.set_status o.id OrderStatus.Filled = Except.error e →
        process_active_orders r [o] px = (r, 0, 0))) ∧
    (crosses o px = false → o.status = OrderStatus.New →
      (∀ o' r', r.set_status o.id OrderStatus.Open = Except.ok (o', r') →
        process_active_orders r [o] px = (r', 0, 1) ∧
          o'.status = OrderStatus.Open) ∧
      (∀ e, r.set_status o.id OrderStatus.Open = Except.error e →
        process_active_orders r [o] px = (r, 0, 0))) ∧
    (crosses o px = false →
      (o.status = OrderStatus.Open ∨ o.status = OrderStatus.PartiallyFilled) →
      process_active_orders r [o] px = (r, 0, 0)) := by
  refine ⟨fun hc => ⟨fun o' r' hset => ⟨?_, ?_⟩, fun e hset => ?_⟩,
          fun hc hn => ⟨fun o' r' hset => ⟨?_, ?_⟩, fun e hset => ?_⟩,
          fun hc hst => ?_⟩
  · simp [process_active_orders, hc, hset]
  · exact (set_status_ok r o.id _ o' r' hset).2.1
  · simp [process_active_orders, hc, hset]
  · simp [process_active_orders, hc, hn, hset]
  · exact (set_status_ok r o.id _ o' r' hset).2.1
  · simp [process_active_orders, hc, hn, hset]
  · rcases hst with h | h <;> simp [process_active_orders, hc, h]

/-- Witness for `per_order_outcome`: the crossing order `bad` whose
`set_status` fails leaves the repository untouched and counts nothing. -/
theorem per_order_outcome_witness :
    process_active_orders wRepoFail
        [sampleOrder "bad" OrderSide.Buy 100 OrderStatus.Open] 100 =
      (wRepoFail, 0, 0) :=
  ((per_order_outcome wRepoFail
      (sampleOrder "bad" OrderSide.Buy 100 OrderStatus.Open) 100).1
    (by decide)).2 "boom set_status" rfl

/-- C3: repository-failure isolation within one tick — when one of the
three per-status list calls fails, the active set is exactly the
concatenation of the other buckets; and when `set_status` fails for an
order, that order contributes nothing (no state change, no counter) while
every remaining order in the active set is still evaluated. -/
theorem tick_failure_isolation (asset : String) (r : RepoState) (px : ℚ) :
    (∀ s, r.failListOn = some s →
      collect_active_orders asset r =
        ([OrderStatus.New, OrderStatus.Open,
            OrderStatus.PartiallyFilled].filter
            (fun st => decide (¬ st = s))).foldl
          (fun acc st =>
            acc ++ listOrders r.orders
              { pair := some asset, status := some st,
                limit := none, offset := none })
          []) ∧
    (∀ o rest, o.id ∈ r.failSetFor →
      process_active_orders r (o :: rest) px =
        process_active_orders r rest px) := by
  constructor
  · intro s hs
    cases s <;>
      simp [collect_active_orders, RepoState.list, hs, List.filter]
  · intro o rest hfail
    have hset : ∀ st, r.set_status o.id st =
        Except.error "boom set_status" := by
      intro st
      simp [RepoState.set_status, hfail]
    cases hc : crosses o px
    · by_cases hn : o.status = OrderStatus.New
      · simp [process_active_orders, hc, hn, hset]
      · simp [process_active_orders, hc, hn]
    · simp [process_active_orders, hc, hset]

/-- Witness for `tick_failure_isolation`: in the repository whose `Open`
list call fails and whose order `bad` refuses status writes, the active
set is assembled from the `New` and `PartiallyFilled` buckets alone, and
processing skips over `bad`. -/
theorem tick_failure_isolation_witness :
    collect_active_orders "BTC/USDT" wRepoFail =
      ([OrderStatus.New, OrderStatus.Open,
          OrderStatus.PartiallyFilled].filter
          (fun st => decide (¬ st = OrderStatus.Open))).foldl
        (fun acc st =>
          acc ++ listOrders wRepoFail.orders
            { pair := some "BTC/USDT", status := some st,
              limit := none, offset := none })
        [] ∧
    process_active_orders wRepoFail
        [sampleOrder "bad" OrderSide.Buy 100 OrderStatus.Open] 100 =
      process_active_orders wRepoFail [] 100 :=
  ⟨(tick_failure_isolation "BTC/USDT" wRepoFail 100).1 OrderStatus.Open rfl,
   (tick_failure_isolation "BTC/USDT" wRepoFail 100).2
     (sampleOrder "bad" OrderSide.Buy 100 OrderStatus.Open) [] (by decide)⟩

/-- Membership in the filtered order list means matching every filter
present. -/
theorem mem_filterOrders (orders : List Order) (qp : Option String)
    (qs : Option OrderStatus) (o : Order) :
    o ∈ filterOrders orders qp qs ↔
      o ∈ orders ∧ (∀ p, qp = some p → o.pair = p) ∧
        (∀ s, qs = some s → o.status = s) := by
  cases qp <;> cases qs <;>
    simp [filterOrders, List.mem_filter]
  tauto

/-- The slice only selects among the given items. -/
theorem sliceOrders_subset (items : List Order) (limit offset : Option ℤ) :
    ∀ o ∈ sliceOrders items limit offset, o ∈ items := by
  intro o ho
  simp only [sliceOrders] at ho
  split at ho
  · cases ho
  · exact List.drop_subset _ _ (List.take_subset _ _ ho)

/-- With no limit the slice is a plain drop at the clamped offset. -/
theorem sliceOrders_none (items : List Order) (offset : Option ℤ) :
    sliceOrders items none offset =
      items.drop (max (offset.getD 0) 0).toNat := by
  simp only [sliceOrders, min_self]
  by_cases h : items.length ≤ (max (offset.getD 0) 0).toNat
  · rw [if_pos h, List.drop_eq_nil_of_le h]
  · rw [if_neg h, ← List.length_drop ((max (offset.getD 0) 0).toNat) items,
      List.take_length]

/-- A non-positive limit behaves like no limit. -/
theorem sliceOrders_nonpos (items : List Order) (l : ℤ) (offset : Option ℤ)
    (hle : l ≤ 0) :
    sliceOrders items (some l) offset =
      items.drop (max (offset.getD 0) 0).toNat := by
  have h0 : ¬ (0 < l) := not_lt.mpr hle
  simp only [sliceOrders, h0, if_false, min_self]
  by_cases h : items.length ≤ (max (offset.getD 0) 0).toNat
  · rw [if_pos h, List.drop_eq_nil_of_le h]
  · rw [if_neg h, ← List.length_drop ((max (offset.getD 0) 0).toNat) items,
      List.take_length]

/-- The slice depends on the offset only through the clamped start
index. -/
theorem sliceOrders_congr_start (items : List Order) (limit : Option ℤ)
    (off1 off2 : Option ℤ)
    (h : (max (off1.getD 0) 0).toNat = (max (off2.getD 0) 0).toNat) :
    sliceOrders items limit off1 = sliceOrders items limit off2 := by
  simp only [sliceOrders, h]

/-- C7: repository list semantics — the pair and status filters are
ANDed; an absent or non-positive limit means no limit; a negative offset
is treated as offset 0; an offset at or past the size of the filtered
set yields the empty result. -/
theorem list_semantics (orders : List Order) (q : ListOrdersQuery) :
    (∀ o ∈ listOrders orders q,
      o ∈ orders ∧ (∀ p, q.pair = some p → o.pair = p) ∧
        (∀ s, q.status = some s → o.status = s)) ∧
    ((q.limit = none ∨ ∃ l, q.limit = some l ∧ l ≤ 0) →
      listOrders orders q =
        (filterOrders orders q.pair q.status).drop
          (max (q.offset.getD 0) 0).toNat) ∧
    (∀ off, q.offset = some off → off < 0 →
      listOrders orders q = listOrders orders { q with offset := some 0 }) ∧
    (∀ off, q.offset = some off →
      ((filterOrders orders q.pair q.status).length : ℤ) ≤ off →
      listOrders orders q = []) := by
  refine ⟨fun o ho => ?_, fun hl => ?_, fun off hoff hneg => ?_,
          fun off hoff hlen => ?_⟩
  · exact (mem_filterOrders orders q.pair q.status o).mp
      (sliceOrders_subset _ _ _ o ho)
  · rcases hl with h | ⟨l, h, hle⟩
    · unfold listOrders
      rw [h, sliceOrders_none]
    · unfold listOrders
      rw [h, sliceOrders_nonpos _ _ _ hle]
  · have hmax : (max ((some off).getD 0) 0).toNat =
        (max ((some (0 : ℤ)).getD 0) 0).toNat := by
      have h1 : max off (0 : ℤ) = 0 := max_eq_right (le_of_lt hneg)
      simp [h1]
    unfold listOrders
    rw [hoff]
    exact sliceOrders_congr_start (filterOrders orders q.pair q.status)
      q.limit (some off) (some 0) hmax
  · have hoff0 : (0 : ℤ) ≤ off :=
      le_trans (Int.natCast_nonneg _) hlen
    have hstart : (filterOrders orders q.pair q.status).length ≤
        (max (q.offset.getD 0) 0).toNat := by
      rw [hoff]
      simp only [Option.getD_some]
      rw [max_eq_left hoff0]
      exact (Int.le_toNat hoff0).mpr hlen
    unfold listOrders
    simp only [sliceOrders]
    rw [if_pos hstart]

/-- Witness for `list_semantics`: an offset past the filtered size yields
the empty list on a concrete repository. -/
theorem list_semantics_witness :
    listOrders wRepoA.orders
        { pair := some "BTC/USDT", status := none, limit := none,
          offset := some 10 } = [] :=
  (list_semantics wRepoA.orders
      { pair := some "BTC/USDT", status := none, limit := none,
        offset := some 10 }).2.2.2 10 rfl (by decide)

/-- A successful repository `list` returns exactly the filtered and
sliced orders. -/
theorem list_ok (r : RepoState) (q : ListOrdersQuery) (v : List Order)
    (h : r.list q = Except.ok v) : v = listOrders r.orders q := by
  unfold RepoState.list at h
  split at h
  · split at h
    · cases h
    · exact (Except.ok.inj h).symm
  · exact (Except.ok.inj h).symm

/-- The per-status query of the matcher has no limit and no offset, so
its result is exactly the filtered set. -/
theorem listOrders_no_slice (orders : List Order) (p : String)
    (st : OrderStatus) :
    listOrders orders
        { pair := some p, status := some st, limit := none,
          offset := none } =
      filterOrders orders (some p) (some st) := by
  unfold listOrders
  rw [sliceOrders_none]
  simp

/-- Membership in the fold that assembles the active set, for any prefix
accumulator and any list of status buckets. -/
theorem mem_collect_foldl (asset : String) (r : RepoState)
    (sts : List OrderStatus) (acc : List Order) (a : Order) :
    a ∈ sts.foldl
        (fun acc status =>
          match r.list { pair := some asset, status := some status,
                          limit := none, offset := none } with
          | Except.ok v => acc ++ v
          | Except.error _ => acc)
        acc ↔
      a ∈ acc ∨ ∃ st ∈ sts, ∃ v,
        r.list { pair := some asset, status := some st,
                  limit := none, offset := none } = Except.ok v ∧ a ∈ v := by
  induction sts generalizing acc with
  | nil => simp
  | cons st sts ih =>
    simp only [List.foldl_cons]
    rw [ih]
    cases h : r.list ({ pair := some asset, status := some st, limit := none, offset := none } : ListOrdersQuery) with
    | ok v =>
      simp only [h, List.mem_append]
      constructor
      · rintro ((h1 | h1) | ⟨st', hst', v', hv', ha⟩)
        · exact Or.inl h1
        · exact Or.inr ⟨st, List.mem_cons_self st sts, v, h, h1⟩
        · exact Or.inr ⟨st', List.mem_cons_of_mem st hst', v', hv', ha⟩
      · rintro (h1 | ⟨st', hst', v', hv', ha⟩)
        · exact Or.inl (Or.inl h1)
        · rcases List.mem_cons.mp hst' with he | hm
          · subst he
            rw [h] at hv'
            cases Except.ok.inj hv'
            exact Or.inl (Or.inr ha)
          · exact Or.inr ⟨st', hm, v', hv', ha⟩
    | error e =>
      simp only [h]
      constructor
      · rintro (h1 | ⟨st', hst', v', hv', ha⟩)
        · exact Or.inl h1
        · exact Or.inr ⟨st', List.mem_cons_of_mem st hst', v', hv', ha⟩
      · rintro (h1 | ⟨st', hst', v', hv', ha⟩)
        · exact Or.inl h1
        · rcases List.mem_cons.mp hst' with he | hm
          · subst he
            rw [h] at hv'
            cases hv'
          · exact Or.inr ⟨st', hm, v', hv', ha⟩

/-- Every order in the assembled active set is a stored order of the
asset with an active status. -/
theorem mem_collect_active (asset : String) (r : RepoState) (a : Order)
    (ha : a ∈ collect_active_orders asset r) :
    a ∈ r.orders ∧ a.pair = asset ∧
      (a.status = OrderStatus.New ∨ a.status = OrderStatus.Open ∨
        a.status = OrderStatus.PartiallyFilled) := by
  unfold collect_active_orders at ha
  rw [mem_collect_foldl] at ha
  rcases ha with h | ⟨st, hst, v, hok, hav⟩
  · cases h
  · have hv := list_ok r _ v hok
    subst hv
    rw [listOrders_no_slice] at hav
    obtain ⟨h1, h2, h3⟩ := (mem_filterOrders _ _ _ a).mp hav
    refine ⟨h1, h2 asset rfl, ?_⟩
    have hs := h3 st rfl
    simp only [List.mem_cons, List.not_mem_nil, or_false] at hst
    rcases hst with h | h | h <;> subst h <;> simp [hs]

/-- C10: active-set completeness — when every per-status list call
succeeds (no injected list failure), the active set assembled by
`collect_active_orders` contains exactly the stored orders of the asset
whose status is `New`, `Open` or `PartiallyFilled`; the queries carry no
limit and no offset, so nothing is lost to pagination and no `Filled` or
`Cancelled` order is included. -/
theorem active_set_complete (asset : String) (r : RepoState)
    (hok : r.failListOn = none) (o : Order) :
    o ∈ collect_active_orders asset r ↔
      o ∈ r.orders ∧ o.pair = asset ∧
        (o.status = OrderStatus.New ∨ o.status = OrderStatus.Open ∨
          o.status = OrderStatus.PartiallyFilled) := by
  constructor
  · exact mem_collect_active asset r o
  · rintro ⟨h1, h2, h3⟩
    unfold collect_active_orders
    rw [mem_collect_foldl]
    right
    refine ⟨o.status, ?_, listOrders r.orders
      { pair := some asset, status := some o.status, limit := none,
        offset := none }, ?_, ?_⟩
    · rcases h3 with h | h | h <;> simp [h]
    · unfold RepoState.list
      rw [hok]
    · rw [listOrders_no_slice]
      exact (mem_filterOrders _ _ _ o).mpr ⟨h1, by simp [h2], by simp⟩

/-- Witness for `active_set_complete`: the `New` order `n1` of the
healthy repository is in the active set, characterised exactly. -/
theorem active_set_complete_witness :
    sampleOrder "n1" OrderSide.Buy 100 OrderStatus.New ∈
        collect_active_orders "BTC/USDT" wRepoA ↔
      sampleOrder "n1" OrderSide.Buy 100 OrderStatus.New ∈ wRepoA.orders ∧
        (sampleOrder "n1" OrderSide.Buy 100 OrderStatus.New).pair =
          "BTC/USDT" ∧
        ((sampleOrder "n1" OrderSide.Buy 100 OrderStatus.New).status =
            OrderStatus.New ∨
          (sampleOrder "n1" OrderSide.Buy 100 OrderStatus.New).status =
            OrderStatus.Open ∨
          (sampleOrder "n1" OrderSide.Buy 100 OrderStatus.New).status =
            OrderStatus.PartiallyFilled) :=
  active_set_complete "BTC/USDT" wRepoA rfl
    (sampleOrder "n1" OrderSide.Buy 100 OrderStatus.New)

/-- Unfolding: a crossing head order whose fill succeeds contributes one
match and continues processing from the updated state. -/
theorem process_cons_fill_ok (r : RepoState) (o : Order)
    (rest : List Order) (px : ℚ) (o' : Order) (r' : RepoState)
    (hc : crosses o px = true)
    (hset : r.set_status o.id OrderStatus.Filled = Except.ok (o', r')) :
    process_active_orders r (o :: rest) px =
      ((process_active_orders r' rest px).1,
       (process_active_orders r' rest px).2.1 + 1,
       (process_active_orders r' rest px).2.2) := by
  rcases hpp : process_active_orders r' rest px with ⟨r2, m2, p2⟩
  simp [process_active_orders, hc, hset, hpp]

/-- Unfolding: a crossing head order whose fill fails contributes
nothing and leaves the state as it was. -/
theorem process_cons_fill_err (r : RepoState) (o : Order)
    (rest : List Order) (px : ℚ) (e : String) (hc : crosses o px = true)
    (hset : r.set_status o.id OrderStatus.Filled = Except.error e) :
    process_active_orders r (o :: rest) px =
      process_active_orders r rest px := by
  simp [process_active_orders, hc, hset]

/-- Unfolding: a non-crossing `New` head order whose promotion succeeds
contributes one promotion and continues from the updated state. -/
theorem process_cons_promote_ok (r : RepoState) (o : Order)
    (rest : List Order) (px : ℚ) (o' : Order) (r' : RepoState)
    (hc : crosses o px = false) (hn : o.status = OrderStatus.New)
    (hset : r.set_status o.id OrderStatus.Open = Except.ok (o', r')) :
    process_active_orders r (o :: rest) px =
      ((process_active_orders r' rest px).1,
       (process_active_orders r' rest px).2.1,
       (process_active_orders r' rest px).2.2 + 1) := by
  rcases hpp : process_active_orders r' rest px with ⟨r2, m2, p2⟩
  simp [process_active_orders, hc, hn, hset, hpp]

/-- Unfolding: a non-crossing `New` head order whose promotion fails
contributes nothing. -/
theorem process_cons_promote_err (r : RepoState) (o : Order)
    (rest : List Order) (px : ℚ) (e : String) (hc : crosses o px = false)
    (hn : o.status = OrderStatus.New)
    (hset : r.set_status o.id OrderStatus.Open = Except.error e) :
    process_active_orders r (o :: rest) px =
      process_active_orders r rest px := by
  simp [process_active_orders, hc, hn, hset]

/-- Unfolding: a non-crossing head order that is not `New` is skipped
without any repository call. -/
theorem process_cons_skip (r : RepoState) (o : Order) (rest : List Order)
    (px : ℚ) (hc : crosses o px = false)
    (hn : ¬ o.status = OrderStatus.New) :
    process_active_orders r (o :: rest) px =
      process_active_orders r rest px := by
  simp [process_active_orders, hc, hn]

/-- Filtering by an id is unchanged by a map that either fixes an element
or moves it between ids different from the filtered one. -/
theorem filter_id_map (l : List Order) (g : Order → Order) (i : String)
    (hg : ∀ x ∈ l, g x = x ∨ ((g x).id ≠ i ∧ x.id ≠ i)) :
    (l.map g).filter (fun x => decide (x.id = i)) =
      l.filter (fun x => decide (x.id = i)) := by
  induction l with
  | nil => rfl
  | cons a l ih =>
    have hrest : ∀ x ∈ l, g x = x ∨ ((g x).id ≠ i ∧ x.id ≠ i) :=
      fun x hx => hg x (List.mem_cons_of_mem a hx)
    rcases hg a (List.mem_cons_self a l) with hid | ⟨h1, h2⟩
    · simp only [List.map_cons, List.filter_cons, hid, ih hrest]
    · simp only [List.map_cons, List.filter_cons, ih hrest]
      rw [if_neg (by simp [h1]), if_neg (by simp [h2])]

/-- A successful `set_status` for one id leaves the entries of every
other id untouched. -/
theorem set_status_other_ids (r : RepoState) (id i : String)
    (st : OrderStatus) (o' : Order) (r' : RepoState) (hne : id ≠ i)
    (h : r.set_status id st = Except.ok (o', r')) :
    r'.orders.filter (fun x => decide (x.id = i)) =
      r.orders.filter (fun x => decide (x.id = i)) := by
  obtain ⟨hid, _, _, hr⟩ := set_status_ok r id st o' r' h
  subst hr
  apply filter_id_map
  intro x hx
  by_cases hxid : x.id = id
  · right
    constructor
    · simp [hxid, hid, hne]
    · simp [hxid, hne]
  · left
    simp [hxid]

/-- Processing a list of orders none of which carries a given id leaves
every stored entry of that id untouched. -/
theorem process_preserves_untouched (orders : List Order) (r : RepoState)
    (px : ℚ) (i : String) (h : ∀ a ∈ orders, a.id ≠ i) :
    (process_active_orders r orders px).1.orders.filter
        (fun x => decide (x.id = i)) =
      r.orders.filter (fun x => decide (x.id = i)) := by
  induction orders generalizing r with
  | nil => simp [process_active_orders]
  | cons o rest ih =>
    have ho : o.id ≠ i := h o (List.mem_cons_self o rest)
    have hrest : ∀ a ∈ rest, a.id ≠ i :=
      fun a ha => h a (List.mem_cons_of_mem o ha)
    cases hc : crosses o px with
    | true =>
      cases hset : r.set_status o.id OrderStatus.Filled with
      | ok pr =>
        obtain ⟨o', r'⟩ := pr
        rw [process_cons_fill_ok r o rest px o' r' hc hset]
        exact (ih r' hrest).trans
          (set_status_other_ids r o.id i OrderStatus.Filled o' r' ho hset)
      | error e =>
        rw [process_cons_fill_err r o rest px e hc hset]
        exact ih r hrest
    | false =>
      by_cases hn : o.status = OrderStatus.New
      · cases hset : r.set_status o.id OrderStatus.Open with
        | ok pr =>
          obtain ⟨o', r'⟩ := pr
          rw [process_cons_promote_ok r o rest px o' r' hc hn hset]
          exact (ih r' hrest).trans
            (set_status_other_ids r o.id i OrderStatus.Open o' r' ho hset)
        | error e =>
          rw [process_cons_promote_err r o rest px e hc hn hset]
          exact ih r hrest
      · rw [process_cons_skip r o rest px hc hn]
        exact ih r hrest

/-- C4 counterexample: the claim is false for direct `set_status` calls —
the repository applies any requested status unconditionally, so a
`Cancelled` order is moved to `Filled` by a single `set_status` call
(the race the design notes acknowledge). -/
theorem terminal_escape_counterexample :
    (sampleOrder "c1" OrderSide.Buy 100 OrderStatus.Cancelled).status =
      OrderStatus.Cancelled ∧
    ∃ o' r', wRepoCancel.set_status "c1" OrderStatus.Filled =
        Except.ok (o', r') ∧ o'.status = OrderStatus.Filled :=
  ⟨rfl, ⟨_, _, rfl, rfl⟩⟩

/-- C4 (amended): once an order is `Filled` or `Cancelled`, no matcher
tick mutates it — a terminal order is never in the active set, so the
whole tick preserves its stored entry exactly; direct `set_status` calls,
however, are unguarded and can leave the terminal states. -/
theorem matcher_tick_preserves_terminal (asset : String) (r : RepoState)
    (px : ℚ) (hids : (r.orders.map Order.id).Nodup) (o : Order)
    (ho : o ∈ r.orders)
    (hterm : o.status = OrderStatus.Filled ∨
      o.status = OrderStatus.Cancelled) :
    o ∈ (matcherTick asset r px).1.orders ∧
    (matcherTick asset r px).1.orders.filter
        (fun x => decide (x.id = o.id)) =
      r.orders.filter (fun x => decide (x.id = o.id)) := by
  have hactive : ∀ a ∈ collect_active_orders asset r, a.id ≠ o.id := by
    intro a ha heq
    obtain ⟨haR, _, hast⟩ := mem_collect_active asset r a ha
    have hao : a = o := List.inj_on_of_nodup_map hids haR ho heq
    subst hao
    rcases hast with h1 | h1 | h1 <;> rcases hterm with h2 | h2 <;>
      simp [h1] at h2
  have hfil : (matcherTick asset r px).1.orders.filter
      (fun x => decide (x.id = o.id)) =
      r.orders.filter (fun x => decide (x.id = o.id)) :=
    process_preserves_untouched (collect_active_orders asset r) r px
      o.id hactive
  refine ⟨?_, hfil⟩
  have hmem : o ∈ r.orders.filter (fun x => decide (x.id = o.id)) :=
    List.mem_filter.mpr ⟨ho, by simp⟩
  have hmem2 : o ∈ (matcherTick asset r px).1.orders.filter
      (fun x => decide (x.id = o.id)) := by
    rw [hfil]
    exact hmem
  exact (List.mem_filter.mp hmem2).1

/-- Witness for `matcher_tick_preserves_terminal`: the `Filled` order
`f1` survives a whole matcher tick of the healthy repository
untouched. -/
theorem matcher_tick_preserves_terminal_witness :
    sampleOrder "f1" OrderSide.Buy 100 OrderStatus.Filled ∈
      (matcherTick "BTC/USDT" wRepoA 100).1.orders :=
  (matcher_tick_preserves_terminal "BTC/USDT" wRepoA 100 (by decide)
    (sampleOrder "f1" OrderSide.Buy 100 OrderStatus.Filled) (by decide)
    (Or.inl rfl)).1

/-- C8 counterexample: nothing validates prices or quantities — the HTTP
create surface copies the payload verbatim and `create` stores it, so a
create with price −1 stores an order violating the positivity
invariant. -/
theorem stored_positivity_counterexample :
    ∃ o ∈ (create_order emptyRepo "id-neg"
        { pair := "BTC/USDT", side := OrderSide.Buy, price := -1,
          quantity := 1 }).2.orders,
      ¬ (0 < o.price ∧ 0 < o.quantity) := by
  refine ⟨Order.new "id-neg" "BTC/USDT" OrderSide.Buy (-1) 1 0, ?_, ?_⟩
  · simp [create_order, RepoState.create, emptyRepo]
  · rintro ⟨hp, _⟩
    norm_num [Order.new] at hp

/-- C8 (amended): every repository operation preserves positivity — if
every stored order and every created order has positive price and
quantity, then after any sequence of create, `set_status` and delete
operations every stored order still has positive price and quantity; the
create path itself performs no validation, so the invariant is
conditional on the inputs. -/
theorem stored_positivity_preserved (r0 : RepoState) (ops : List RepoOp)
    (h0 : ∀ o ∈ r0.orders, 0 < o.price ∧ 0 < o.quantity)
    (hops : ∀ op ∈ ops, ∀ freshId n, op = RepoOp.create freshId n →
      0 < n.price ∧ 0 < n.quantity) :
    ∀ o ∈ (applyOps r0 ops).orders, 0 < o.price ∧ 0 < o.quantity := by
  induction ops generalizing r0 with
  | nil => simpa [applyOps] using h0
  | cons op rest ih =>
    have hstep : ∀ o ∈ (r0.applyOp op).orders,
        0 < o.price ∧ 0 < o.quantity := by
      cases op with
      | create freshId n =>
        intro o ho
        have hpos := hops (RepoOp.create freshId n)
          (List.mem_cons_self _ _) freshId n rfl
        simp only [RepoState.applyOp, RepoState.create] at ho
        rcases List.mem_cons.mp ho with he | hm
        · subst he
          exact hpos
        · exact h0 o (List.mem_of_mem_filter hm)
      | setStatus id st =>
        intro o ho
        simp only [RepoState.applyOp] at ho
        cases hset : r0.set_status id st with
        | ok pr =>
          obtain ⟨o', r'⟩ := pr
          rw [hset] at ho
          obtain ⟨_, _, ⟨o0, hmem0, ho'⟩, hr⟩ :=
            set_status_ok r0 id st o' r' hset
          rw [hr] at ho
          simp only [List.mem_map] at ho
          obtain ⟨x, hx, hgx⟩ := ho
          by_cases hxid : x.id = id
          · rw [if_pos hxid] at hgx
            subst hgx
            subst ho'
            exact h0 o0 hmem0
          · rw [if_neg hxid] at hgx
            subst hgx
            exact h0 x hx
        | error e =>
          rw [hset] at ho
          exact h0 o ho
      | delete id =>
        intro o ho
        simp only [RepoState.applyOp, RepoState.delete] at ho
        by_cases hc : r0.orders.any (fun x => decide (x.id = id)) = true
        · rw [if_pos hc] at ho
          exact h0 o (List.mem_of_mem_filter ho)
        · rw [if_neg hc] at ho
          exact h0 o ho
    exact ih (r0.applyOp op) hstep
      (fun op' h' => hops op' (List.mem_cons_of_mem op h'))

/-- Witness for `stored_positivity_preserved`: a single valid create on
the empty repository stores an order with positive price and
quantity. -/
theorem stored_positivity_preserved_witness :
    0 < (Order.new "w8" "BTC/USDT" OrderSide.Buy 100 1 0).price ∧
    0 < (Order.new "w8" "BTC/USDT" OrderSide.Buy 100 1 0).quantity :=
  stored_positivity_preserved emptyRepo
    [RepoOp.create "w8"
      { pair := "BTC/USDT", side := OrderSide.Buy, price := 100,
        quantity := 1 }]
    (fun o ho => absurd ho (by simp [emptyRepo]))
    (fun op hop freshId n he => by
      simp only [List.mem_singleton] at hop
      subst hop
      cases he
      exact ⟨by norm_num, by norm_num⟩)
    (Order.new "w8" "BTC/USDT" OrderSide.Buy 100 1 0)
    (by decide)

/-- C9 (code bug): the spec demands exact decimal fixed-point for every
price entering the crossing comparison, but the source stores the oracle
tick price as binary floating point (`Tick.price: f64`), and the sibling
crate's order prices and quantities are `f64` as well.  A decimal
boundary price such as 100.1 = 1001/10 is not exactly representable by
any binary floating-point value, so the crossing equality at that
boundary cannot be exact: no dyadic value equals 1001/10. -/
theorem oracle_price_not_f64_exact : ¬ f64Exact (1001 / 10 : ℚ) := by
  rintro ⟨m, e, hme⟩
  have h10 : (1001 : ℚ) * 2 ^ e = m * 10 := by
    field_simp at hme
    linarith
  have hz : (1001 : ℤ) * 2 ^ e = m * 10 := by exact_mod_cast h10
  have h5 : (5 : ℤ) ∣ 1001 * 2 ^ e := ⟨m * 2, by linarith⟩
  have hp : Prime (5 : ℤ) := by norm_num
  rcases hp.dvd_mul.mp h5 with h | h
  · exact absurd h (by decide)
  · have h2 : (5 : ℤ) ∣ 2 := hp.dvd_of_dvd_pow h
    exact absurd h2 (by decide)

end Orderbook
